import Mathlib

/-!
Verification of the edit-protocol core of `p2p-notepad`:
the codec in `src/diff.rs` and the document engine in `src/notepad.rs`.

Modelling conventions:
* Rust `u8` bytes are `Nat` with explicit `% 256` where the source truncates
  and `< 256` / `≤ 255` hypotheses where the byte range matters.
* Rust `String` (UTF-8 text) is `List Char`; `String::insert` / `String::remove`
  take BYTE indices into the UTF-8 encoding, which is modelled by walking the
  character list weighted by `Char.utf8Size`.
* Rust panics (`panic!`, `unwrap`, `expect`, string index assertions) are
  modelled as `Except` errors / `Option.none`.
-/

set_option maxRecDepth 8000

namespace P2PNotepad

/-- `Operation` from `src/diff.rs` (`Del`, `Ins`, `Rep`). -/
inductive Operation
  | Del
  | Ins
  | Rep
deriving DecidableEq, Repr

/-- The discriminant cast `opcode as u8` used by `Into<Vec<u8>> for MessageBuf`:
`Del = 0`, `Ins = 1`, `Rep = 2`. -/
def Operation.toByte : Operation → Nat
  | .Del => 0
  | .Ins => 1
  | .Rep => 2

/-- `TryFrom<u8> for Operation` from `src/diff.rs`: bytes 0,1,2 map to
`Del`, `Ins`, `Rep`; anything else is an error (`none`). -/
def Operation.fromByte (byte : Nat) : Option Operation :=
  if byte = 0 then some .Del
  else if byte = 1 then some .Ins
  else if byte = 2 then some .Rep
  else none

/-- `Diff` from `src/diff.rs`: an opcode, an optional operand character, and a
`u8` index (modelled as `Nat`, bounded by hypotheses where it matters). -/
structure Diff where
  opcode : Operation
  operand : Option Char
  index : Nat
deriving DecidableEq, Repr

/-- `MessageBuf { messages: Vec<Diff> }` modelled as the list of its messages. -/
abbrev MessageBuf := List Diff

/-- The three bytes that `Into<Vec<u8>> for MessageBuf` emits for one `Diff`:
`[opcode as u8, operand byte, index]`, where the operand byte is the operand's
code point truncated to a byte (`c as u8`, i.e. `% 256`) and `0` when absent. -/
def encodeDiff (d : Diff) : List Nat :=
  [d.opcode.toByte,
   (match d.operand with
    | some c => c.toNat % 256
    | none => 0),
   d.index]

/-- `Into<Vec<u8>> for MessageBuf` (src/diff.rs, lines 59-75): concatenate the
3-byte encodings of the messages in order. -/
def encode : MessageBuf → List Nat
  | [] => []
  | d :: ds => encodeDiff d ++ encode ds

/-- The two failure modes of `From<Vec<u8>> for MessageBuf`: the
`panic!("Data length must be a multiple of 3")` and the `unwrap` of
`TryFrom<u8> for Operation`. -/
inductive DecodeError
  | malformedLength
  | unknownOpcode
deriving DecidableEq, Repr

/-- The chunk loop of `From<Vec<u8>> for MessageBuf`: each 3-byte group
`[a, b, i]` becomes a `Diff` whose opcode comes from `a` (first invalid opcode
aborts the whole decode), whose operand is absent when `b = 0` and the character
with code `b` otherwise (`b as char`), and whose index is `i`. The catch-all
branch is unreachable when the input length is a multiple of 3. -/
def decodeChunks : List Nat → Except DecodeError MessageBuf
  | [] => .ok []
  | a :: b :: i :: rest =>
    match Operation.fromByte a with
    | none => .error .unknownOpcode
    | some op =>
      match decodeChunks rest with
      | .error e => .error e
      | .ok ds =>
        .ok ({ opcode := op,
               operand := if b = 0 then none else some (Char.ofNat b),
               index := i } :: ds)
  | _ => .error .malformedLength

/-- `From<Vec<u8>> for MessageBuf` (src/diff.rs, lines 34-57): reject any input
whose length is not a multiple of 3, otherwise decode the 3-byte chunks. -/
def decode (data : List Nat) : Except DecodeError MessageBuf :=
  if data.length % 3 = 0 then decodeChunks data else .error .malformedLength

/-- The failure modes of `Notepad::apply_diff`: a `String::insert`/`String::remove`
index panic and the `expect("Char not given to Operation: ...")` panics. -/
inductive ApplyError
  | indexOutOfRange
  | missingOperand
deriving DecidableEq, Repr

/-- Rust `String::insert(idx, ch)` on UTF-8 text modelled as `List Char`:
`idx` is a BYTE index; the insertion succeeds exactly when `idx` is at most the
byte length of the text and falls on a character boundary, and fails (panics)
otherwise. -/
def insertAtByte : List Char → Nat → Char → Option (List Char)
  | [], i, v => if i = 0 then some [v] else none
  | c :: cs, i, v =>
    if i = 0 then some (v :: c :: cs)
    else if i < c.utf8Size then none
    else (insertAtByte cs (i - c.utf8Size) v).map (fun r => c :: r)

/-- Rust `String::remove(idx)` on UTF-8 text modelled as `List Char`: `idx` is
a BYTE index; removal succeeds exactly when `idx` is strictly below the byte
length and on a character boundary, returning the removed character and the
remaining text, and fails (panics) otherwise. -/
def removeAtByte : List Char → Nat → Option (Char × List Char)
  | [], _ => none
  | c :: cs, i =>
    if i = 0 then some (c, cs)
    else if i < c.utf8Size then none
    else (removeAtByte cs (i - c.utf8Size)).map (fun p => (p.1, c :: p.2))

/-- `Notepad::apply_diff` (src/notepad.rs, lines 13-28), with `Notepad::insert`,
`Notepad::remove` and `Notepad::replace` inlined. `Del` removes at `index`;
`Ins` first demands the operand (`expect`) and inserts it at `index`; `Rep`
demands the operand, then removes at `index` and inserts at `index`. -/
def applyDiff (d : Diff) (text : List Char) : Except ApplyError (List Char) :=
  match d.opcode with
  | .Del =>
    match removeAtByte text d.index with
    | some (_, t) => .ok t
    | none => .error .indexOutOfRange
  | .Ins =>
    match d.operand with
    | none => .error .missingOperand
    | some c =>
      match insertAtByte text d.index c with
      | some t => .ok t
      | none => .error .indexOutOfRange
  | .Rep =>
    match d.operand with
    | none => .error .missingOperand
    | some c =>
      match removeAtByte text d.index with
      | none => .error .indexOutOfRange
      | some (_, t) =>
        match insertAtByte t d.index c with
        | some t2 => .ok t2
        | none => .error .indexOutOfRange

/-- `Notepad::apply_message_buf` (src/notepad.rs, lines 9-11): apply the diffs
in order; a failing diff panics out of the loop, leaving the text as mutated by
the earlier diffs. The `Bool` records whether every diff succeeded. -/
def applyMessageBuf : MessageBuf → List Char → List Char × Bool
  | [], text => (text, true)
  | d :: ds, text =>
    match applyDiff d text with
    | .error _ => (text, false)
    | .ok t => applyMessageBuf ds t

/-- Byte length of the UTF-8 encoding of a text. -/
def utf8ByteLength (t : List Char) : Nat := (t.map Char.utf8Size).sum

/-- Byte offset of the `k`-th character in the UTF-8 encoding of a text. -/
def utf8Offset (t : List Char) (k : Nat) : Nat := ((t.take k).map Char.utf8Size).sum

/-- The well-formedness predicate of §4.1/§8 on raw byte sequences: length a
multiple of 3 (enforced by the shape of the recursion), every group's opcode
byte in `{0,1,2}`, operand and index bytes in the byte range, and the operand
byte `0` exactly for a `Del` group. -/
def wfBytes : List Nat → Bool
  | [] => true
  | a :: b :: i :: rest =>
    decide (a ≤ 2) && decide (b ≤ 255) && decide (i ≤ 255) &&
      ((b == 0) == (a == 0)) && wfBytes rest
  | _ => false

/-- The repository's own unit test `into_message_buf` reproduced against the
embedding. -/
theorem into_message_buf_test :
    encode [⟨.Ins, some 'a', 0⟩, ⟨.Ins, some 'b', 0⟩, ⟨.Del, none, 1⟩] =
      [1, 97, 0, 1, 98, 0, 0, 0, 1] := by decide

/-- The repository's own unit test `from_message_buf` reproduced against the
embedding. -/
theorem from_message_buf_test :
    decode [1, 97, 0, 1, 98, 0, 0, 0, 1] =
      .ok [⟨.Ins, some 'a', 0⟩, ⟨.Ins, some 'b', 0⟩, ⟨.Del, none, 1⟩] := by rfl

/-- The spec's §8 sequential-application scenario reproduced against the
embedding: `"hello"` with `[Ins(0, H), Del(1)]` yields `"Hello"`. -/
theorem sequential_application_scenario :
    applyMessageBuf [⟨.Ins, some 'H', 0⟩, ⟨.Del, none, 1⟩]
      "hello".data = ("Hello".data, true) := by rfl

/-- For byte-range code points, `Char.ofNat` inverts `Char.toNat`. -/
theorem toNat_ofNat_of_lt {b : Nat} (h : b < 256) : (Char.ofNat b).toNat = b := by
  have hv : b.isValidChar := Or.inl (by omega)
  rw [Char.ofNat, dif_pos hv]
  rfl

/-- `Operation.fromByte` inverts `Operation.toByte`. -/
theorem fromByte_toByte (op : Operation) : Operation.fromByte op.toByte = some op := by
  cases op <;> rfl

/-- Every byte in `{0, 1, 2}` decodes to the operation that encodes back to it. -/
theorem fromByte_of_le_two {a : Nat} (ha : a ≤ 2) :
    ∃ op : Operation, Operation.fromByte a = some op ∧ op.toByte = a := by
  interval_cases a
  · exact ⟨.Del, rfl, rfl⟩
  · exact ⟨.Ins, rfl, rfl⟩
  · exact ⟨.Rep, rfl, rfl⟩

/-- Operand well-formedness for round-tripping: an operand, when present, has
a code point in `[1, 255]` (a single nonzero byte). -/
def operandInByteRange : Option Char → Bool
  | some c => decide (1 ≤ c.toNat ∧ c.toNat ≤ 255)
  | none => true

/-- Decoding the chunkwise encoding of a batch whose operand code points are
single nonzero bytes recovers the batch. -/
theorem decodeChunks_encode : ∀ (m : MessageBuf),
    (∀ d ∈ m, operandInByteRange d.operand = true) →
    decodeChunks (encode m) = .ok m
  | [], _ => rfl
  | d :: ds, h => by
    have hd := h d (List.mem_cons_self d ds)
    have hrest := decodeChunks_encode ds (fun x hx => h x (List.mem_cons_of_mem d hx))
    obtain ⟨op, operand, idx⟩ := d
    simp only [encode, encodeDiff, List.cons_append, List.nil_append]
    rw [decodeChunks, fromByte_toByte, hrest]
    cases operand with
    | none => rfl
    | some c =>
      simp only [operandInByteRange, decide_eq_true_eq] at hd
      have h256 : c.toNat % 256 = c.toNat := Nat.mod_eq_of_lt (by omega)
      have hne : ¬ (c.toNat = 0) := by omega
      simp [h256, hne, Char.ofNat_toNat]

/-- The encoding of a batch is three bytes per message. -/
theorem length_encode (m : MessageBuf) : (encode m).length = 3 * m.length := by
  induction m with
  | nil => rfl
  | cons d ds ih =>
    simp only [encode, encodeDiff, List.length_append, List.length_cons, ih]
    simp [Nat.mul_succ, Nat.add_comm]

/-- C9: for every edit batch, with no well-formedness assumption at all, the
encoding has length exactly three times the number of operations. -/
theorem encode_length (m : MessageBuf) : (encode m).length = 3 * m.length :=
  length_encode m

/-- C3: decoding any byte sequence whose length is not a multiple of 3 fails
with `MalformedLength`; no batch (partial or otherwise) is produced. -/
theorem decode_malformed_length (data : List Nat) (h : data.length % 3 ≠ 0) :
    decode data = .error .malformedLength := by
  simp [decode, h]

/-- Closed witness for C3 at the concrete input `[1]`. -/
theorem decode_malformed_length_witness :
    decode [1] = .error .malformedLength :=
  decode_malformed_length [1] (by decide)

/-- C1: decoding the encoding of a batch recovers the batch, for every batch
satisfying the operand/kind invariant whose operand code points and index
values lie in `[1, 255]` (0 being reserved for "absent"). -/
theorem decode_encode_roundtrip (m : MessageBuf)
    (hinv : ∀ d ∈ m, d.operand.isSome = true ↔ (d.opcode = .Ins ∨ d.opcode = .Rep))
    (hoperand : ∀ d ∈ m, operandInByteRange d.operand = true)
    (hindex : ∀ d ∈ m, 1 ≤ d.index ∧ d.index ≤ 255) :
    decode (encode m) = .ok m := by
  have hlen : (encode m).length % 3 = 0 := by
    rw [length_encode]
    omega
  rw [decode, if_pos hlen]
  exact decodeChunks_encode m hoperand

/-- Closed witness for C1 at a concrete batch of all three operation kinds. -/
theorem decode_encode_roundtrip_witness :
    decode (encode [⟨.Ins, some 'a', 1⟩, ⟨.Rep, some 'b', 2⟩, ⟨.Del, none, 3⟩]) =
      .ok [⟨.Ins, some 'a', 1⟩, ⟨.Rep, some 'b', 2⟩, ⟨.Del, none, 3⟩] :=
  decode_encode_roundtrip [⟨.Ins, some 'a', 1⟩, ⟨.Rep, some 'b', 2⟩, ⟨.Del, none, 3⟩]
    (by decide) (by decide) (by decide)

/-- C5: `apply_message_buf` processes a batch strictly in sequence order — a
successful head operation hands its mutated buffer to the rest of the batch, a
failing head operation aborts the batch leaving the buffer as it stands — and
concretely the batch `[Ins(0, x), Del(99)]` on `"ab"` leaves `"xab"` (first
operation applied, second failed), not the rolled-back `"ab"`. -/
theorem apply_message_buf_sequential :
    (∀ (d : Diff) (ds : MessageBuf) (t t' : List Char),
        applyDiff d t = .ok t' → applyMessageBuf (d :: ds) t = applyMessageBuf ds t') ∧
    (∀ (d : Diff) (ds : MessageBuf) (t : List Char) (e : ApplyError),
        applyDiff d t = .error e → applyMessageBuf (d :: ds) t = (t, false)) ∧
    applyMessageBuf [⟨.Ins, some 'x', 0⟩, ⟨.Del, none, 99⟩] "ab".data =
      ("xab".data, false) := by
  refine ⟨?_, ?_, by rfl⟩
  · intro d ds t t' h
    rw [applyMessageBuf, h]
  · intro d ds t e h
    rw [applyMessageBuf, h]

/-- Closed witness for C5: the sequencing facts applied at concrete inputs. -/
theorem apply_message_buf_sequential_witness :
    applyMessageBuf [⟨.Del, none, 0⟩] "a".data = applyMessageBuf [] [] ∧
    applyMessageBuf [⟨.Del, none, 5⟩] "a".data = ("a".data, false) :=
  ⟨apply_message_buf_sequential.1 ⟨.Del, none, 0⟩ [] "a".data [] (by rfl),
   apply_message_buf_sequential.2.1 ⟨.Del, none, 5⟩ [] "a".data .indexOutOfRange (by rfl)⟩

/-- C10: applying a `Del` diff never looks at the operand — a `Del` carrying an
operand (which decoding can produce: byte group `[0, 97, 1]` decodes to a `Del`
with operand `a` present) mutates the buffer exactly as the operand-free `Del`
at the same index, and never fails because of the operand. -/
theorem delete_ignores_operand :
    (∀ (o : Option Char) (p : Nat) (t : List Char),
        applyDiff { opcode := .Del, operand := o, index := p } t =
          applyDiff { opcode := .Del, operand := none, index := p } t) ∧
    decode [0, 97, 1] = .ok [{ opcode := .Del, operand := some 'a', index := 1 }] :=
  ⟨fun _ _ _ => rfl, by rfl⟩

/-- A byte sequence of 3-byte groups containing a group with an invalid opcode
byte decodes chunkwise to the `unknownOpcode` error. -/
theorem decodeChunks_unknown_opcode : ∀ (data : List Nat),
    data.length % 3 = 0 →
    (∃ k a, data[3 * k]? = some a ∧ 3 ≤ a) →
    decodeChunks data = .error .unknownOpcode
  | [], _, h => by
    obtain ⟨k, a, hk, _⟩ := h
    simp at hk
  | [_], hlen, _ => by simp at hlen
  | [_, _], hlen, _ => by simp at hlen
  | a :: b :: i :: rest, hlen, h => by
    obtain ⟨k, v, hk, hv⟩ := h
    by_cases ha : 3 ≤ a
    · have hnone : Operation.fromByte a = none := by
        rw [Operation.fromByte, if_neg (by omega), if_neg (by omega), if_neg (by omega)]
      rw [decodeChunks, hnone]
    · have hk0 : k ≠ 0 := by
        intro h0
        subst h0
        simp at hk
        omega
      obtain ⟨j, rfl⟩ : ∃ j, k = j + 1 := ⟨k - 1, by omega⟩
      have hk' : rest[3 * j]? = some v := by
        have h3 : 3 * (j + 1) = 3 * j + 1 + 1 + 1 := by ring
        rw [h3] at hk
        simpa using hk
      have hlen' : rest.length % 3 = 0 := by
        simp only [List.length_cons] at hlen
        omega
      have ih := decodeChunks_unknown_opcode rest hlen' ⟨j, v, hk', hv⟩
      obtain ⟨op, hop, -⟩ := fromByte_of_le_two (by omega : a ≤ 2)
      rw [decodeChunks, hop, ih]

/-- C4: decoding a byte sequence of 3-byte groups that contains a group whose
opcode byte lies outside `{0, 1, 2}` fails with `UnknownOpcode`; no batch made
of the remaining well-formed groups is returned. -/
theorem decode_unknown_opcode (data : List Nat)
    (hbytes : ∀ b ∈ data, b ≤ 255)
    (hlen : data.length % 3 = 0)
    (hbad : ∃ k a, data[3 * k]? = some a ∧ 3 ≤ a) :
    decode data = .error .unknownOpcode := by
  rw [decode, if_pos hlen]
  exact decodeChunks_unknown_opcode data hlen hbad

/-- Closed witness for C4: one well-formed `Ins` group followed by a group with
opcode byte 7 aborts the whole decode. -/
theorem decode_unknown_opcode_witness :
    decode [1, 97, 0, 7, 97, 0] = .error .unknownOpcode :=
  decode_unknown_opcode [1, 97, 0, 7, 97, 0] (by decide) (by decide)
    ⟨1, 7, by rfl, by decide⟩

/-- Byte sequences accepted by `wfBytes` have length a multiple of 3. -/
theorem wfBytes_length_mod : ∀ (data : List Nat),
    wfBytes data = true → data.length % 3 = 0
  | [], _ => rfl
  | [_], h => by simp [wfBytes] at h
  | [_, _], h => by simp [wfBytes] at h
  | _ :: _ :: _ :: rest, h => by
    rw [wfBytes] at h
    simp only [Bool.and_eq_true] at h
    have := wfBytes_length_mod rest h.2
    simp only [List.length_cons]
    omega

/-- Chunkwise decoding of a well-formed byte sequence succeeds, and re-encoding
the decoded batch reproduces the bytes. -/
theorem decodeChunks_wfBytes : ∀ (data : List Nat), wfBytes data = true →
    ∃ m : MessageBuf, decodeChunks data = .ok m ∧ encode m = data
  | [], _ => ⟨[], rfl, rfl⟩
  | [_], h => by simp [wfBytes] at h
  | [_, _], h => by simp [wfBytes] at h
  | a :: b :: i :: rest, h => by
    rw [wfBytes] at h
    simp only [Bool.and_eq_true, decide_eq_true_eq] at h
    obtain ⟨⟨⟨⟨ha, hb⟩, hi⟩, hba⟩, hrest⟩ := h
    obtain ⟨m, hdec, henc⟩ := decodeChunks_wfBytes rest hrest
    obtain ⟨op, hop, hopb⟩ := fromByte_of_le_two ha
    refine ⟨{ opcode := op,
              operand := if b = 0 then none else some (Char.ofNat b),
              index := i } :: m, ?_, ?_⟩
    · rw [decodeChunks, hop, hdec]
    · by_cases hb0 : b = 0
      · simp [encode, encodeDiff, hb0, hopb, henc]
      · have htn : (Char.ofNat b).toNat = b := toNat_ofNat_of_lt (by omega)
        have hmod : b % 256 = b := Nat.mod_eq_of_lt (by omega)
        simp [encode, encodeDiff, hb0, hopb, henc, htn, hmod]

/-- C7: for every byte sequence obeying the operand/kind invariant (length a
multiple of 3, opcode bytes in `{0,1,2}`, operand byte 0 exactly for `Del`
groups, all bytes in range), decoding succeeds and re-encoding the decoded
batch reproduces the original bytes exactly. -/
theorem encode_decode_roundtrip (data : List Nat) (h : wfBytes data = true) :
    ∃ m : MessageBuf, decode data = .ok m ∧ encode m = data := by
  rw [decode, if_pos (wfBytes_length_mod data h)]
  exact decodeChunks_wfBytes data h

/-- Closed witness for C7 at the concrete bytes `[1,97,0, 2,98,1, 0,0,1]`. -/
theorem encode_decode_roundtrip_witness :
    ∃ m : MessageBuf, decode [1, 97, 0, 2, 98, 1, 0, 0, 1] = .ok m ∧
      encode m = [1, 97, 0, 2, 98, 1, 0, 0, 1] :=
  encode_decode_roundtrip [1, 97, 0, 2, 98, 1, 0, 0, 1] (by decide)

/-- Removing at the byte offset of the `k`-th character removes exactly the
`k`-th character. -/
theorem removeAtByte_utf8Offset : ∀ (t : List Char) (k : Nat) (h : k < t.length),
    removeAtByte t (utf8Offset t k) = some (t.get ⟨k, h⟩, t.eraseIdx k)
  | [], k, h => absurd h (by simp)
  | _ :: _, 0, _ => rfl
  | x :: xs, k + 1, h => by
    have hlt : k < xs.length := by simpa using h
    have ih := removeAtByte_utf8Offset xs k hlt
    have hoff : utf8Offset (x :: xs) (k + 1) = x.utf8Size + utf8Offset xs k := by
      simp [utf8Offset]
    have hpos : 0 < x.utf8Size := x.utf8Size_pos
    rw [hoff, removeAtByte, if_neg (by omega), if_neg (by omega)]
    have hsub : x.utf8Size + utf8Offset xs k - x.utf8Size = utf8Offset xs k := by omega
    rw [hsub, ih]
    rfl

/-- Removing at a byte index at or beyond the byte length of the text fails. -/
theorem removeAtByte_ge_byteLength : ∀ (t : List Char) (p : Nat),
    utf8ByteLength t ≤ p → removeAtByte t p = none
  | [], _, _ => rfl
  | x :: xs, p, h => by
    have hpos : 0 < x.utf8Size := x.utf8Size_pos
    have hlen : utf8ByteLength (x :: xs) = x.utf8Size + utf8ByteLength xs := by
      simp [utf8ByteLength]
    rw [hlen] at h
    rw [removeAtByte, if_neg (by omega), if_neg (by omega),
        removeAtByte_ge_byteLength xs (p - x.utf8Size) (by omega)]
    rfl

/-- Counterexample to C2 as stated: on the text `"éab"` (3 characters), `Del`
at position 2 succeeds but yields `"éb"` — it removes `'a'`, the character at
BYTE offset 2, not `'b'`, the character at character index 2; so the position
field is NOT interpreted in Unicode scalar values on non-ASCII text. -/
theorem delete_not_char_indexed_counterexample :
    ("éab".data.length = 3) ∧
    applyDiff { opcode := .Del, operand := none, index := 2 } "éab".data =
      .ok "éb".data ∧
    "éb".data ≠ "éa".data :=
  ⟨rfl, rfl, by decide⟩

/-- C2 amended: the position field is a BYTE index into the UTF-8 encoding of
the text: `Del` at the byte offset of the `k`-th character (for `k` below the
character length) removes exactly the `k`-th character. On ASCII text byte
offsets and character indices coincide. -/
theorem delete_at_utf8_offset (t : List Char) (k : Nat) (o : Option Char)
    (h : k < t.length) :
    applyDiff { opcode := .Del, operand := o, index := utf8Offset t k } t =
      .ok (t.eraseIdx k) := by
  simp only [applyDiff]
  rw [removeAtByte_utf8Offset t k h]

/-- Closed witness for the amended C2 on the text `"éab"`, character 1. -/
theorem delete_at_utf8_offset_witness :
    applyDiff { opcode := .Del, operand := none, index := utf8Offset "éab".data 1 }
      "éab".data = .ok ("éab".data.eraseIdx 1) :=
  delete_at_utf8_offset "éab".data 1 none (by decide)

/-- Counterexample to C6 as stated: on the text `"éé"` (2 characters), `Del`
at position 2 — at the character length, so the claim demands an
`IndexOutOfRange` failure with the buffer unchanged — succeeds and removes the
second character. -/
theorem delete_at_char_length_counterexample :
    ("éé".data.length = 2) ∧
    applyDiff { opcode := .Del, operand := none, index := 2 } "éé".data =
      .ok "é".data :=
  ⟨rfl, rfl⟩

/-- C6 amended: `Del` at a position at or beyond the BYTE length of the text
fails with `IndexOutOfRange` and leaves the buffer unchanged (on ASCII text the
byte length equals the character length, covering the spec's `Delete(5)` on a
3-character text). -/
theorem delete_beyond_byte_length (t : List Char) (o : Option Char) (p : Nat)
    (h : utf8ByteLength t ≤ p) :
    applyDiff { opcode := .Del, operand := o, index := p } t =
      .error .indexOutOfRange ∧
    applyMessageBuf [{ opcode := .Del, operand := o, index := p }] t = (t, false) := by
  have h1 : applyDiff { opcode := .Del, operand := o, index := p } t =
      .error .indexOutOfRange := by
    simp only [applyDiff]
    rw [removeAtByte_ge_byteLength t p h]
  refine ⟨h1, ?_⟩
  rw [applyMessageBuf, h1]

/-- Closed witness for the amended C6: `Delete(5)` on the 3-character ASCII
text `"abc"` fails and leaves the buffer unchanged. -/
theorem delete_beyond_byte_length_witness :
    applyDiff { opcode := .Del, operand := none, index := 5 } "abc".data =
      .error .indexOutOfRange ∧
    applyMessageBuf [{ opcode := .Del, operand := none, index := 5 }] "abc".data =
      ("abc".data, false) :=
  delete_beyond_byte_length "abc".data none 5 (by decide)

/-- Inserting a character at byte index `p` and then removing at byte index `p`
gives back the original text (with the inserted character as the one removed). -/
theorem removeAtByte_insertAtByte : ∀ (t : List Char) (p : Nat) (c : Char)
    (t' : List Char), insertAtByte t p c = some t' →
    removeAtByte t' p = some (c, t)
  | [], p, c, t', h => by
    rw [insertAtByte] at h
    by_cases hp : p = 0
    · subst hp
      rw [if_pos rfl] at h
      injection h with h
      subst h
      rfl
    · rw [if_neg hp] at h
      cases h
  | x :: xs, p, c, t', h => by
    rw [insertAtByte] at h
    by_cases hp : p = 0
    · subst hp
      rw [if_pos rfl] at h
      injection h with h
      subst h
      rfl
    · rw [if_neg hp] at h
      by_cases hs : p < x.utf8Size
      · rw [if_pos hs] at h
        cases h
      · rw [if_neg hs] at h
        cases hxs : insertAtByte xs (p - x.utf8Size) c with
        | none =>
          rw [hxs] at h
          cases h
        | some r =>
          rw [hxs] at h
          simp only [Option.map_some'] at h
          cases h
          have ih := removeAtByte_insertAtByte xs (p - x.utf8Size) c r hxs
          rw [removeAtByte, if_neg hp, if_neg hs, ih]
          rfl

/-- Counterexample to C8 as stated: on the buffer `"é"` (1 character), with
`p = 1` within the claim's bounds (`p ≤ character length`), the insertion
itself fails — byte index 1 is inside the two-byte character `'é'` — so the
insert-then-delete composite cannot return the buffer to `T`. -/
theorem insert_delete_char_bounds_counterexample :
    ("é".data.length = 1) ∧
    applyDiff { opcode := .Ins, operand := some 'a', index := 1 } "é".data =
      .error .indexOutOfRange :=
  ⟨rfl, rfl⟩

/-- C8 amended: whenever `Insert(p, c)` succeeds on buffer `T` (i.e. `p` is at
most the byte length of `T` and on a character boundary), applying `Delete(p)`
to the result returns exactly `T`. -/
theorem insert_then_delete_inverse (t t' : List Char) (p : Nat) (c : Char)
    (h : applyDiff { opcode := .Ins, operand := some c, index := p } t = .ok t') :
    applyDiff { opcode := .Del, operand := none, index := p } t' = .ok t := by
  simp only [applyDiff] at h ⊢
  cases hx : insertAtByte t p c with
  | none =>
    rw [hx] at h
    cases h
  | some r =>
    rw [hx] at h
    have hr : r = t' := by injection h
    subst hr
    rw [removeAtByte_insertAtByte t p c r hx]

/-- Closed witness for the amended C8: inserting `'x'` into `"ab"` at byte
index 1 and deleting at index 1 returns `"ab"`. -/
theorem insert_then_delete_inverse_witness :
    applyDiff { opcode := .Del, operand := none, index := 1 } "axb".data =
      .ok "ab".data :=
  insert_then_delete_inverse "ab".data "axb".data 1 'x' (by rfl)

end P2PNotepad
